import Mathlib

/-!
Shallow embedding of the CoinJoin detection/refinement pipeline
(`1_parse_coinjoins.py`, `3_refine_samourai.py`, `3_refine_wasabi.py`,
`utils.py`).

Monetary values are integer satoshis.  Every float constant appearing in the
Python source (`0.01*SATOSHI_IN_BTC`, `0.05*...`, `0.5*...`, `0.0011*...`,
`0.1*...`, `0.02*...`, `0.015*...`, `0.08*...`, `0.09*...`, `0.11*...`,
`0.12*...`) evaluates, as an IEEE-754 double, to an exact integer
(1000000, 5000000, 50000000, 110000, 10000000, 2000000, 1500000, 8000000,
9000000, 11000000, 12000000 respectively), and Python compares ints with
floats exactly, so all comparisons in the source are exact integer
comparisons and are embedded as such.
-/

/-- Raw transaction output as produced by the block parser
(`format_transaction` in `utils.py`): a satoshi value and a list of
destination addresses. -/
structure Output where
  value : Int
  addresses : List String
deriving DecidableEq, Repr

/-- Raw transaction input: the referenced outpoint. -/
structure RawInput where
  hash : String
  index : Nat
deriving DecidableEq, Repr

/-- Raw transaction as seen by the detector (`1_parse_coinjoins.py`).
`n_inputs`/`n_outputs` of the Python transaction object are the lengths of
the input/output lists. -/
structure Transaction where
  isCoinbase : Bool
  inputs : List RawInput
  outputs : List Output
deriving DecidableEq, Repr

/-- Enriched transaction input (GraphSense record): carries the resolved
value of the consumed output, `tx_input_['value']['value']`. -/
structure EInput where
  value : Int
deriving DecidableEq, Repr

/-- Enriched transaction output (GraphSense record):
`output['value']['value']` and `output['address']`. -/
structure EOutput where
  value : Int
  address : List String
deriving DecidableEq, Repr

/-- Enriched transaction (GraphSense record) consumed by the refiners:
`tx_hash`, `height`, inputs with resolved values, outputs. -/
structure ETx where
  tx_hash : String
  height : Nat
  inputs : List EInput
  outputs : List EOutput
deriving DecidableEq, Repr

/-- `utils.SATOSHI_IN_BTC`. -/
def SATOSHI_IN_BTC : Int := 100000000

namespace Wasabi

/-- `utils.Wasabi.FIRST_BLOCK`. -/
def FIRST_BLOCK : Nat := 530500

/-- `utils.Wasabi.FIRST_BLOCK_NO_STATIC_COORD`. -/
def FIRST_BLOCK_NO_STATIC_COORD : Nat := 610000

/-- `utils.Wasabi.APPROX_BASE_DENOM = 0.1 * SATOSHI_IN_BTC` (exact double). -/
def APPROX_BASE_DENOM : Int := 10000000

/-- `utils.Wasabi.MAX_PRECISION = 0.02 * SATOSHI_IN_BTC` (exact double). -/
def MAX_PRECISION : Int := 2000000

/-- `utils.Wasabi.COORD_ADDRESSES`. -/
def COORD_ADDRESSES : List String :=
  ["bc1qs604c7jv6amk4cxqlnvuxv26hv3e48cds4m0ew",
   "bc1qa24tsgchvuxsaccp8vrnkfd85hrcpafg20kmjw"]

end Wasabi

namespace Samourai

/-- `utils.Samourai.FIRST_BLOCK`. -/
def FIRST_BLOCK : Nat := 570000

/-- `utils.Samourai.WHIRLPOOL_SIZES = [0.01, 0.05, 0.5] * SATOSHI_IN_BTC`
(each an exact double). -/
def WHIRLPOOL_SIZES : List Int := [1000000, 5000000, 50000000]

/-- `utils.Samourai.MAX_POOL_FEE = 0.0011 * SATOSHI_IN_BTC` (exact double). -/
def MAX_POOL_FEE : Int := 110000

end Samourai

/-- Python's `str.lower()` (ASCII case folding, which covers Bitcoin
addresses), character by character. -/
def lowerStr (s : String) : String := ⟨s.data.map Char.toLower⟩

/-- Python's `str.startswith(p)`. -/
def startsWithStr (s p : String) : Bool := p.data.isPrefixOf s.data

/-- One step of Python's `defaultdict(int)` occurrence counting:
`output_count[v] += 1`.  If `v` is already a key its count is bumped,
otherwise `(v, 1)` is appended, preserving insertion order exactly as a
Python dict does. -/
def insertCount : List (Int × Nat) → Int → List (Int × Nat)
  | [], v => [(v, 1)]
  | (k, c) :: rest, v =>
      if k = v then (k, c + 1) :: rest else (k, c) :: insertCount rest v

/-- The occurrence-count table `output_count` built by iterating over a list
of values, in Python dict insertion (= first-seen) order. -/
def outputCounts (vals : List Int) : List (Int × Nat) :=
  vals.foldl insertCount []

/-- Python's `max(items, key=itemgetter(1))`: the first element attaining the
maximal second component (`max` only replaces the current best on a strictly
greater key).  `none` on the empty list (where Python raises `ValueError`). -/
def maxBySnd : List (Int × Nat) → Option (Int × Nat)
  | [] => none
  | p :: rest =>
      some (rest.foldl (fun best q => if best.2 < q.2 then q else best) p)

/-- `tx.outputs[0].value` (callers guard non-emptiness; the default is never
reached under those guards). -/
def Transaction.firstOutputValue (tx : Transaction) : Int :=
  ((tx.outputs.head?).map Output.value).getD 0

/-- `tx['outputs'][0]['value']['value']` (callers guard non-emptiness). -/
def ETx.firstOutputValue (tx : ETx) : Int :=
  ((tx.outputs.head?).map EOutput.value).getD 0

/-- `CoinJoinParser.is_potential_samourai_coin_join` from
`1_parse_coinjoins.py`: exactly 5 inputs, exactly 5 outputs, one distinct
output value, and that value is a Whirlpool pool size. -/
def is_potential_samourai_coin_join (tx : Transaction) : Bool :=
  if tx.inputs.length = 5 ∧ tx.outputs.length = 5 then
    if (tx.outputs.map Output.value).dedup.length = 1 then
      decide (tx.firstOutputValue ∈ Samourai.WHIRLPOOL_SIZES)
    else false
  else false

/-- `CoinJoinParser.is_wasabi_coin_join_static_coord` from
`1_parse_coinjoins.py`. -/
def is_wasabi_coin_join_static_coord (tx : Transaction) : Bool :=
  if 3 ≤ tx.outputs.length then
    (tx.outputs.any fun o =>
      o.addresses.any fun a => decide (lowerStr a ∈ Wasabi.COORD_ADDRESSES))
    && ((outputCounts (tx.outputs.map Output.value)).any fun p => 2 < p.2)
  else false

/-- `CoinJoinParser.is_wasabi_coin_join_heuristic` from
`1_parse_coinjoins.py`: at least 10 outputs; the most frequent output value
(first maximal in insertion order) occurs at least 10 times and at most
`n_inputs` times; it is within `MAX_PRECISION` of `APPROX_BASE_DENOM`; some
output value occurs exactly once; at least 3 distinct output values. -/
def is_wasabi_coin_join_heuristic (tx : Transaction) : Bool :=
  if 10 ≤ tx.outputs.length then
    match maxBySnd (outputCounts (tx.outputs.map Output.value)) with
    | none => false
    | some m =>
        decide (m.2 ≤ tx.inputs.length) && decide (10 ≤ m.2)
        && decide (|Wasabi.APPROX_BASE_DENOM - m.1| ≤ Wasabi.MAX_PRECISION)
        && ((outputCounts (tx.outputs.map Output.value)).any fun p => p.2 = 1)
        && decide (3 ≤ (outputCounts (tx.outputs.map Output.value)).length)
  else false

/-- `CoinJoinParser.is_wasabi_coin_join`: pipe-joined list of matching
Wasabi heuristics, or `none` when neither matches. -/
def is_wasabi_coin_join (tx : Transaction) : Option String :=
  let detection :=
    (if is_wasabi_coin_join_static_coord tx then ["coord address"] else [])
      ++ (if is_wasabi_coin_join_heuristic tx then ["heuristic"] else [])
  if detection.isEmpty then none else some (String.intercalate "|" detection)

/-- The classification record returned by `CoinJoinParser.is_coin_join`:
`{'cj_type': ..., 'details': ...}`. -/
structure Classification where
  cj_type : Option String
  details : Option String
deriving DecidableEq, Repr

/-- The pre-downgrade part of `CoinJoinParser.is_coin_join`: coinbase check,
then Samourai heuristic, then the Wasabi heuristics. -/
def classify (tx : Transaction) : Classification :=
  if tx.isCoinbase then ⟨none, some "coinbase"⟩
  else if is_potential_samourai_coin_join tx then
    ⟨some "samourai", some "heuristic"⟩
  else
    match is_wasabi_coin_join tx with
    | some d => ⟨some "wasabi", some d⟩
    | none => ⟨none, none⟩

/-- `CoinJoinParser.is_coin_join` from `1_parse_coinjoins.py`:
classification followed by the temporal false-positive downgrade. -/
def is_coin_join (tx : Transaction) (block_height : Nat) : Classification :=
  if (classify tx).cj_type = some "samourai"
      ∧ block_height < Samourai.FIRST_BLOCK then
    ⟨(classify tx).cj_type, some "false positive"⟩
  else if (classify tx).cj_type = some "wasabi"
      ∧ block_height < Wasabi.FIRST_BLOCK then
    ⟨(classify tx).cj_type, some "false positive"⟩
  else classify tx

/-- Number of remix inputs for pool size `sz`: resolved value exactly `sz`
(`3_refine_samourai.py`, `count_remix`). -/
def count_remix (tx : ETx) (sz : Int) : Nat :=
  tx.inputs.countP fun i => i.value = sz

/-- Number of premix inputs for pool size `sz`: resolved value in
`(sz, sz + MAX_POOL_FEE]` (`3_refine_samourai.py`, `count_premix`). -/
def count_premix (tx : ETx) (sz : Int) : Nat :=
  tx.inputs.countP fun i => sz < i.value ∧ i.value ≤ sz + Samourai.MAX_POOL_FEE

/-- The accepted remix/premix splits of `is_samourai_coin_join`. -/
def samouraiSplitOk (tx : ETx) (sz : Int) : Bool :=
  (count_remix tx sz = 1 ∧ count_premix tx sz = 4)
    ∨ (count_remix tx sz = 2 ∧ count_premix tx sz = 3)
    ∨ (count_remix tx sz = 3 ∧ count_premix tx sz = 2)

/-- The `for sz in Samourai.WHIRLPOOL_SIZES` loop of
`is_samourai_coin_join`: on the first pool size equal to the first output
value, return the split check; if no pool size matches, fall through to
`False`. -/
def samouraiPoolLoop (tx : ETx) : List Int → Bool
  | [] => false
  | sz :: rest =>
      if tx.firstOutputValue = sz then samouraiSplitOk tx sz
      else samouraiPoolLoop tx rest

/-- `is_samourai_coin_join` from `3_refine_samourai.py`. -/
def is_samourai_coin_join (tx : ETx) : Bool :=
  if tx.inputs.length = 5 ∧ tx.outputs.length = 5 then
    if (tx.outputs.map EOutput.value).dedup.length = 1 then
      samouraiPoolLoop tx Samourai.WHIRLPOOL_SIZES
    else false
  else false

/-- The Tx0-collection loop of `3_refine_samourai.py`'s `__main__`: walk the
enriched inputs together with the raw input hashes (same index), appending
the hash of every input whose resolved value is not a Whirlpool pool size. -/
def collectTx0 : List EInput → List String → List String
  | i :: is, h :: hs =>
      if i.value ∈ Samourai.WHIRLPOOL_SIZES then collectTx0 is hs
      else h :: collectTx0 is hs
  | _, _ => []

/-- The refinement loop of `3_refine_samourai.py`'s `__main__` over
`(txid, enriched tx)` pairs: accepted transactions are kept and their
non-pool-size input hashes (taken from the raw potentials record for that
txid) are appended to the Tx0 list; rejected transactions contribute
nothing. -/
def samouraiRefineRun (potentials : String → List String)
    (txs : List (String × ETx)) : List (String × ETx) × List String :=
  txs.foldl
    (fun acc p =>
      if is_samourai_coin_join p.2 then
        (acc.1 ++ [p], acc.2 ++ collectTx0 p.2.inputs (potentials p.1))
      else acc)
    ([], [])

/-- `tx_uses_gambling_address`'s nested loop from `3_refine_wasabi.py`: the
function returns on the very first address it reaches (the first address of
the first output whose address list is non-empty); outputs with an empty
address list are skipped. -/
def gamblingLoop : List EOutput → Bool
  | [] => false
  | o :: rest =>
      match o.address with
      | [] => gamblingLoop rest
      | a :: _ =>
          startsWithStr (lowerStr a) "1lucky"
            || startsWithStr (lowerStr a) "1dice"

/-- `tx_uses_gambling_address` from `3_refine_wasabi.py`. -/
def tx_uses_gambling_address (tx : ETx) : Bool :=
  gamblingLoop tx.outputs

/-- `tx_reuses_output_address`'s loop: scan addresses in order, tracking the
`seen` set. -/
def reuseLoop (seen : List String) : List String → Bool
  | [] => false
  | a :: rest => if a ∈ seen then true else reuseLoop (a :: seen) rest

/-- `tx_reuses_output_address` from `3_refine_wasabi.py`. -/
def tx_reuses_output_address (tx : ETx) : Bool :=
  reuseLoop [] (tx.outputs.map EOutput.address).flatten

/-- The exact round values of `tx_uses_exact_output_values`
(`[0.08, 0.09, 0.1, 0.11, 0.12] * SATOSHI_IN_BTC`, each an exact double). -/
def EXACT_VALUES : List Int := [8000000, 9000000, 10000000, 11000000, 12000000]

/-- `tx_uses_exact_output_values` from `3_refine_wasabi.py`. -/
def tx_uses_exact_output_values (tx : ETx) : Bool :=
  (outputCounts (tx.outputs.map EOutput.value)).any fun p =>
    decide (10 ≤ p.2) && decide (p.1 ∈ EXACT_VALUES)

/-- `tx_uses_disallowed_values` from `3_refine_wasabi.py`.  `max` over the
empty occurrence table raises `ValueError`, embedded as `Except.error`. -/
def tx_uses_disallowed_values (tx : ETx) : Except String Bool :=
  match maxBySnd (outputCounts (tx.outputs.map EOutput.value)) with
  | none => .error "ValueError: max() arg is an empty sequence"
  | some m =>
      .ok (decide (10 ≤ m.2)
        && decide (Wasabi.MAX_PRECISION < |Wasabi.APPROX_BASE_DENOM - m.1|))

/-- `tx_uses_edge_case_values` from `3_refine_wasabi.py`
(`0.015 * SATOSHI_IN_BTC = 1500000`, an exact double). -/
def tx_uses_edge_case_values (tx : ETx) : Except String Bool :=
  match maxBySnd (outputCounts (tx.outputs.map EOutput.value)) with
  | none => .error "ValueError: max() arg is an empty sequence"
  | some m =>
      .ok (decide (10 ≤ m.2)
        && decide ((1500000 : Int) < |Wasabi.APPROX_BASE_DENOM - m.1|))

/-- The five rejection reasons of the Wasabi refiner's filter chain. -/
inductive Reason where
  | gambling
  | disallowed
  | reuse
  | output_exact
  | output_edge
deriving DecidableEq, Repr

/-- The `if/elif` filter chain of `3_refine_wasabi.py`'s `__main__`:
gambling, then disallowed values, then address reuse, then exact output
values, then edge-case values; the first matching filter wins.  Errors from
the `max()`-based filters propagate. -/
def filterReason (tx : ETx) : Except String (Option Reason) :=
  if tx_uses_gambling_address tx then .ok (some .gambling)
  else
    match tx_uses_disallowed_values tx with
    | .error e => .error e
    | .ok true => .ok (some .disallowed)
    | .ok false =>
        if tx_reuses_output_address tx then .ok (some .reuse)
        else if tx_uses_exact_output_values tx then .ok (some .output_exact)
        else
          match tx_uses_edge_case_values tx with
          | .error e => .error e
          | .ok true => .ok (some .output_edge)
          | .ok false => .ok none

/-- Python `set.add`. -/
def setAdd (s : List String) (x : String) : List String :=
  if x ∈ s then s else x :: s

/-- Python `dict[k] = v`: replace in place if present, else append. -/
def dictInsert : List (String × ETx) → String → ETx → List (String × ETx)
  | [], k, v => [(k, v)]
  | (k', v') :: rest, k, v =>
      if k' = k then (k, v) :: rest else (k', v') :: dictInsert rest k v

/-- The mutable accumulator state of `3_refine_wasabi.py`'s `__main__`:
`filter_stats` counters, the `disallowed_values` and `filtered_ids` sets,
`metric_stats` counters and the `new_txs` output dict. -/
structure WasabiState where
  gambling : Nat
  reuse : Nat
  output_exact : Nat
  output_edge : Nat
  disallowed_values : List String
  filtered_ids : List String
  fp_filtered : Nat
  fp_unfiltered : Nat
  tp : Nat
  fn : Nat
  heuristic_positive : Nat
  new_txs : List (String × ETx)
deriving DecidableEq, Repr

/-- The initial all-zero accumulator state. -/
def initState : WasabiState :=
  ⟨0, 0, 0, 0, [], [], 0, 0, 0, 0, 0, []⟩

/-- Apply a filter verdict to the state: bump the matching per-reason
counter (or add to the `disallowed_values` set) and record the id in
`filtered_ids`; a `none` verdict leaves the state unchanged. -/
def applyFilter (s : WasabiState) (txid : String) : Option Reason → WasabiState
  | some .gambling =>
      { s with gambling := s.gambling + 1,
               filtered_ids := setAdd s.filtered_ids txid }
  | some .disallowed =>
      { s with disallowed_values := setAdd s.disallowed_values txid,
               filtered_ids := setAdd s.filtered_ids txid }
  | some .reuse =>
      { s with reuse := s.reuse + 1,
               filtered_ids := setAdd s.filtered_ids txid }
  | some .output_exact =>
      { s with output_exact := s.output_exact + 1,
               filtered_ids := setAdd s.filtered_ids txid }
  | some .output_edge =>
      { s with output_edge := s.output_edge + 1,
               filtered_ids := setAdd s.filtered_ids txid }
  | none => s

/-- The post-filter disposition chain of `3_refine_wasabi.py`'s `__main__`,
keyed on membership in `filtered_ids` and the raw detection details. -/
def disposition (s : WasabiState) (tx : ETx) (cj_details : String) :
    WasabiState :=
  if tx.tx_hash ∈ s.filtered_ids then
    { s with fp_filtered := s.fp_filtered + 1 }
  else if cj_details = "false positive" then
    { s with fp_unfiltered := s.fp_unfiltered + 1 }
  else if cj_details = "coord address|heuristic" then
    { s with tp := s.tp + 1,
             new_txs := dictInsert s.new_txs tx.tx_hash tx }
  else if cj_details = "coord address" then
    { s with fn := s.fn + 1,
             new_txs := dictInsert s.new_txs tx.tx_hash tx }
  else if cj_details = "heuristic" then
    if tx.height ≤ 609999 ∧ 530500 ≤ tx.height then
      { s with fp_unfiltered := s.fp_unfiltered + 1 }
    else
      { s with heuristic_positive := s.heuristic_positive + 1,
               new_txs := dictInsert s.new_txs tx.tx_hash tx }
  else s

/-- One iteration of the refinement loop of `3_refine_wasabi.py`'s
`__main__` for a single enriched transaction: run the filter chain, update
the counters/sets, look the transaction up in the raw detection map
(`KeyError` if absent), then apply the disposition chain. -/
def wasabiStep (raw : List (String × String)) (s : WasabiState) (tx : ETx) :
    Except String WasabiState :=
  match filterReason tx with
  | .error e => .error e
  | .ok r =>
      match raw.lookup tx.tx_hash with
      | none => .error "KeyError"
      | some cj_details =>
          .ok (disposition (applyFilter s tx.tx_hash r) tx cj_details)

/-- The full refinement loop of `3_refine_wasabi.py`'s `__main__` over the
enriched transaction list (`raw` maps tx hash to the raw detection's
`cj.details` string). -/
def wasabiRun (raw : List (String × String)) (txs : List ETx) :
    Except String WasabiState :=
  txs.foldlM (wasabiStep raw) initState

/-- The sum of the per-reason filtered counters appearing in the sanity
check of `3_refine_wasabi.py`'s `__main__` (`len(disallowed_values)` plus
the four `filter_stats` counters). -/
def sumReasons (s : WasabiState) : Nat :=
  s.disallowed_values.length + s.gambling + s.reuse + s.output_exact
    + s.output_edge

/-- The accounting sanity check: `True` exactly when the per-reason sums do
not match `fp_filtered`, in which case the program logs the warning
`UNACCOUNTED FILTER` and still writes its output. -/
def accountingMismatch (s : WasabiState) : Bool :=
  sumReasons s ≠ s.fp_filtered

/-- The Samourai detector condition as the spec states it: exactly 5 inputs
and 5 outputs, all output values identical, and the common value one of the
fixed pool sizes. -/
def SamouraiDetectorSpec (tx : Transaction) : Prop :=
  tx.inputs.length = 5 ∧ tx.outputs.length = 5 ∧
    ∃ sz ∈ Samourai.WHIRLPOOL_SIZES, ∀ o ∈ tx.outputs, o.value = sz

/-- The Samourai refiner acceptance condition as the spec states it:
structural re-validation plus a (remix, premix) split of (1,4), (2,3) or
(3,2), classifying an input as remix when its resolved value equals the
pool size and premix when it lies in `(sz, sz + MAX_POOL_FEE]`. -/
def SamouraiRefinerSpec (tx : ETx) : Prop :=
  tx.inputs.length = 5 ∧ tx.outputs.length = 5 ∧
    ∃ sz ∈ Samourai.WHIRLPOOL_SIZES,
      (∀ o ∈ tx.outputs, o.value = sz) ∧
      ((count_remix tx sz = 1 ∧ count_premix tx sz = 4)
        ∨ (count_remix tx sz = 2 ∧ count_premix tx sz = 3)
        ∨ (count_remix tx sz = 3 ∧ count_premix tx sz = 2))

/-- `m` is the output value of highest occurrence count `c` in `vals`,
first-seen under ties: it occurs in `vals`, `c` is its occurrence count, no
value occurs more often, and among values attaining `c` it has the earliest
first occurrence. -/
def IsFirstSeenMode (vals : List Int) (m : Int) (c : Nat) : Prop :=
  m ∈ vals ∧ c = vals.count m ∧ (∀ v ∈ vals, vals.count v ≤ c) ∧
    ∀ v ∈ vals, vals.count v = c → vals.indexOf m ≤ vals.indexOf v

/-- The Wasabi statistical heuristic as the spec states it: at least 10
outputs; with `(m, c)` the first-seen mode of the output values, the input
count is at least `c`, `c ≥ 10`, `m` within `MAX_PRECISION` of the base
denomination, some output value occurs exactly once, and at least 3 distinct
output values occur. -/
def WasabiHeuristicSpec (tx : Transaction) : Prop :=
  10 ≤ tx.outputs.length ∧
    ∃ m c, IsFirstSeenMode (tx.outputs.map Output.value) m c ∧
      c ≤ tx.inputs.length ∧ 10 ≤ c ∧
      |Wasabi.APPROX_BASE_DENOM - m| ≤ Wasabi.MAX_PRECISION ∧
      (∃ v ∈ tx.outputs.map Output.value,
        (tx.outputs.map Output.value).count v = 1) ∧
      3 ≤ (tx.outputs.map Output.value).dedup.length

/-- The single address actually inspected by `tx_uses_gambling_address`:
the first address of the first output whose address list is non-empty. -/
def firstAddress : List EOutput → Option String
  | [] => none
  | o :: rest =>
      match o.address with
      | [] => firstAddress rest
      | a :: _ => some a

/-- The hashes of the premix inputs of an accepted Samourai transaction
(the raw-record hash paired index-wise with the enriched input whose value
lies in `(sz, sz + MAX_POOL_FEE]` for the transaction's pool size `sz`). -/
def premixHashes (potentials : String → List String) (p : String × ETx) :
    List String :=
  ((p.2.inputs.zip (potentials p.1)).filter fun q =>
    decide (p.2.firstOutputValue < q.1.value ∧
      q.1.value ≤ p.2.firstOutputValue + Samourai.MAX_POOL_FEE)).map Prod.snd

/-- Raw detection map fixture: one transaction detected by the statistical
heuristic only. -/
def rawDet : List (String × String) := [("t1", "heuristic")]

/-- Enriched transaction fixture that survives all five Wasabi filters:
single output at the base denomination with an innocuous address, height in
the static-coordinator era. -/
def tEnr : ETx := ⟨"t1", 600000, [⟨20000000⟩], [⟨10000000, ["addrone"]⟩]⟩

/-- The accumulator state after refining `tEnr` against `rawDet`: surviving
filters with details `heuristic` at height 600000 tallies one
false-positive-unfiltered. -/
def stateAfterOne : WasabiState := ⟨0, 0, 0, 0, [], [], 0, 1, 0, 0, 0, []⟩

/-- Enriched transaction fixture with no outputs. -/
def emptyETx : ETx := ⟨"e0", 0, [], []⟩

/-- Enriched transaction fixture whose first output carries an innocuous
first address followed by a gambling address. -/
def gTx : ETx := ⟨"g1", 0, [], [⟨0, ["1none", "1diceXYZ"]⟩]⟩

/-- Enriched 0.01-BTC-pool fixture: 2 remix inputs at the pool size and 3
premix inputs at pool size + 50000 sat; accepted by the refiner. -/
def c7tx : ETx :=
  ⟨"s1", 600000,
   [⟨1000000⟩, ⟨1000000⟩, ⟨1050000⟩, ⟨1050000⟩, ⟨1050000⟩],
   [⟨1000000, []⟩, ⟨1000000, []⟩, ⟨1000000, []⟩, ⟨1000000, []⟩,
    ⟨1000000, []⟩]⟩

/-- Raw-record input hashes for `c7tx`, index-aligned with its inputs. -/
def c7hashes : List String := ["h0", "h1", "h2", "h3", "h4"]

/-- Raw transaction fixture matching the Samourai detector heuristic:
5 inputs, 5 outputs, all output values 0.05 BTC. -/
def sTx : Transaction :=
  ⟨false,
   [⟨"i0", 0⟩, ⟨"i1", 0⟩, ⟨"i2", 0⟩, ⟨"i3", 0⟩, ⟨"i4", 0⟩],
   [⟨5000000, []⟩, ⟨5000000, []⟩, ⟨5000000, []⟩, ⟨5000000, []⟩,
    ⟨5000000, []⟩]⟩

/-! ## Helper lemmas -/

lemma dedup_length_eq_one {l : List Int} (h : l ≠ []) :
    l.dedup.length = 1 ↔ ∃ a, ∀ x ∈ l, x = a := by
  rw [← List.card_toFinset, Finset.card_eq_one]
  constructor
  · rintro ⟨a, ha⟩
    refine ⟨a, fun x hx => ?_⟩
    have hx' : x ∈ l.toFinset := List.mem_toFinset.2 hx
    rw [ha, Finset.mem_singleton] at hx'
    exact hx'
  · rintro ⟨a, ha⟩
    refine ⟨a, Finset.ext fun x => ?_⟩
    simp only [List.mem_toFinset, Finset.mem_singleton]
    constructor
    · exact ha x
    · rintro rfl
      obtain ⟨y, hy⟩ := List.exists_mem_of_ne_nil l h
      have hya := ha y hy
      rwa [hya] at hy

lemma uniform_head_iff (v : Int) (rest : List Int) (S : List Int) :
    ((v :: rest).dedup.length = 1 ∧ v ∈ S) ↔
      ∃ sz ∈ S, ∀ x ∈ v :: rest, x = sz := by
  constructor
  · rintro ⟨hd, hv⟩
    obtain ⟨a, ha⟩ := (dedup_length_eq_one (List.cons_ne_nil v rest)).1 hd
    have hva : v = a := ha v (List.mem_cons_self v rest)
    exact ⟨v, hv, fun x hx => (ha x hx).trans hva.symm⟩
  · rintro ⟨sz, hszS, hall⟩
    have hv : v = sz := hall v (List.mem_cons_self v rest)
    exact ⟨(dedup_length_eq_one (List.cons_ne_nil v rest)).2 ⟨sz, hall⟩,
      hv ▸ hszS⟩

/-! ## C4: the Samourai detector heuristic -/

/-- **C4**  The Samourai detector heuristic matches iff the transaction has
exactly 5 inputs and exactly 5 outputs, all output values are identical, and
the common value is one of the fixed Whirlpool pool sizes; any other
transaction does not match. -/
theorem samourai_detector_iff (tx : Transaction) :
    is_potential_samourai_coin_join tx = true ↔ SamouraiDetectorSpec tx := by
  unfold is_potential_samourai_coin_join SamouraiDetectorSpec
  by_cases h5 : tx.inputs.length = 5 ∧ tx.outputs.length = 5
  · rw [if_pos h5]
    obtain ⟨hin, hout⟩ := h5
    cases houts : tx.outputs with
    | nil => rw [houts] at hout; simp at hout
    | cons o rest =>
      rw [houts] at hout
      have hfv : tx.firstOutputValue = o.value := by
        unfold Transaction.firstOutputValue; rw [houts]; rfl
      rw [hfv]
      simp only [List.map_cons]
      have hbool :
          (if (o.value :: rest.map Output.value).dedup.length = 1 then
            decide (o.value ∈ Samourai.WHIRLPOOL_SIZES) else false) = true ↔
          ((o.value :: rest.map Output.value).dedup.length = 1 ∧
            o.value ∈ Samourai.WHIRLPOOL_SIZES) := by
        by_cases hd : (o.value :: rest.map Output.value).dedup.length = 1 <;>
          simp [hd]
      rw [hbool, uniform_head_iff]
      simp only [hin, hout, true_and]
      constructor
      · rintro ⟨sz, hs, hall⟩
        refine ⟨sz, hs, fun o' ho' => ?_⟩
        exact hall o'.value
          (by rw [← List.map_cons]; exact List.mem_map_of_mem _ ho')
      · rintro ⟨sz, hs, hall⟩
        refine ⟨sz, hs, fun x hx => ?_⟩
        rw [← List.map_cons] at hx
        obtain ⟨o', ho', rfl⟩ := List.mem_map.1 hx
        exact hall o' ho'
  · rw [if_neg h5]
    simp only [Bool.false_eq_true, false_iff]
    rintro ⟨h1, h2, -⟩
    exact h5 ⟨h1, h2⟩

/-! ## C10: the Wasabi refiner on zero-output transactions -/

/-- **C10**  On an enriched transaction with zero outputs the gambling
filter returns `False`, and `tx_uses_disallowed_values` — reached next in
the chain — takes `max` of an empty sequence, so the refinement step raises
instead of producing a verdict. -/
theorem zero_outputs_raises (tx : ETx) (h : tx.outputs = []) :
    tx_uses_gambling_address tx = false ∧
    tx_uses_disallowed_values tx
      = .error "ValueError: max() arg is an empty sequence" ∧
    ∀ raw s, wasabiStep raw s tx
      = .error "ValueError: max() arg is an empty sequence" := by
  have hg : tx_uses_gambling_address tx = false := by
    unfold tx_uses_gambling_address; rw [h]; rfl
  have hd : tx_uses_disallowed_values tx
      = .error "ValueError: max() arg is an empty sequence" := by
    unfold tx_uses_disallowed_values; rw [h]; rfl
  refine ⟨hg, hd, fun raw s => ?_⟩
  unfold wasabiStep filterReason
  rw [hg, hd]
  simp

/-- Witness for C10 at a concrete zero-output transaction. -/
theorem zero_outputs_raises_witness :
    tx_uses_gambling_address emptyETx = false ∧
    tx_uses_disallowed_values emptyETx
      = .error "ValueError: max() arg is an empty sequence" ∧
    wasabiStep [] initState emptyETx
      = .error "ValueError: max() arg is an empty sequence" :=
  ⟨(zero_outputs_raises emptyETx rfl).1,
   (zero_outputs_raises emptyETx rfl).2.1,
   (zero_outputs_raises emptyETx rfl).2.2 [] initState⟩

/-! ## C6: the gambling-address filter -/

/-- **C6 (counterexample)**  The claim says the filter accepts iff at least
one address of the first output's address set has a gambling prefix.  On
`gTx` the first output's address set contains the gambling address
`1diceXYZ`, yet the filter returns `False`: it only ever inspects the first
address. -/
theorem gambling_counterexample :
    tx_uses_gambling_address gTx = false ∧
    ((gTx.outputs.headD ⟨0, []⟩).address.any fun a =>
      startsWithStr (lowerStr a) "1lucky"
        || startsWithStr (lowerStr a) "1dice") = true := by
  constructor <;> decide

/-- **C6 (amended)**  The gambling filter returns `True` iff the first
address of the first output having a non-empty address set begins with
`1lucky` or `1dice` (case-insensitively); no other address is ever
inspected, and outputs whose address set is empty are skipped. -/
theorem gambling_first_nonempty_address (tx : ETx) :
    tx_uses_gambling_address tx = true ↔
      ∃ a, firstAddress tx.outputs = some a ∧
        (startsWithStr (lowerStr a) "1lucky" = true ∨
          startsWithStr (lowerStr a) "1dice" = true) := by
  unfold tx_uses_gambling_address
  generalize tx.outputs = os
  induction os with
  | nil => simp [gamblingLoop, firstAddress]
  | cons o rest ih =>
    cases ha : o.address with
    | nil =>
      simp only [gamblingLoop, firstAddress, ha]
      exact ih
    | cons a as =>
      simp [gamblingLoop, firstAddress, ha]

/-! ## C5: the temporal false-positive downgrade -/

/-- **C5**  The downgrade never changes the classification kind; a samourai
classification below block 570000 and a wasabi classification below block
530500 get their details rewritten to `false positive`, while at or above
the protocol's first block the heuristics' details are left intact. -/
theorem temporal_downgrade (tx : Transaction) (h : Nat) :
    (is_coin_join tx h).cj_type = (classify tx).cj_type ∧
    ((is_coin_join tx h).cj_type = some "samourai" →
      h < Samourai.FIRST_BLOCK →
      (is_coin_join tx h).details = some "false positive") ∧
    ((is_coin_join tx h).cj_type = some "wasabi" → h < Wasabi.FIRST_BLOCK →
      (is_coin_join tx h).details = some "false positive") ∧
    ((is_coin_join tx h).cj_type = some "samourai" →
      Samourai.FIRST_BLOCK ≤ h →
      (is_coin_join tx h).details = (classify tx).details) ∧
    ((is_coin_join tx h).cj_type = some "wasabi" → Wasabi.FIRST_BLOCK ≤ h →
      (is_coin_join tx h).details = (classify tx).details) := by
  unfold is_coin_join
  split_ifs with hs hw
  · refine ⟨rfl, fun _ _ => rfl, fun _ _ => rfl,
      fun _ hge => absurd hs.2 (by omega), fun hk _ => ?_⟩
    have hk' : (classify tx).cj_type = some "wasabi" := hk
    rw [hs.1] at hk'
    exact absurd hk' (by decide)
  · refine ⟨rfl, fun _ _ => rfl, fun _ _ => rfl, fun hk _ => ?_,
      fun _ hge => absurd hw.2 (by omega)⟩
    have hk' : (classify tx).cj_type = some "samourai" := hk
    rw [hw.1] at hk'
    exact absurd hk' (by decide)
  · refine ⟨rfl, ?_, ?_, fun _ _ => rfl, fun _ _ => rfl⟩
    · intro hk hlt
      exact absurd ⟨hk, hlt⟩ hs
    · intro hk hlt
      exact absurd ⟨hk, hlt⟩ hw

/-- Witness for C5: a concrete transaction matching the Samourai detector
at height 500000 (below the first Samourai block) is downgraded. -/
theorem temporal_downgrade_witness :
    (is_coin_join sTx 500000).cj_type = some "samourai" ∧
    (is_coin_join sTx 500000).details = some "false positive" :=
  ⟨by decide,
   (temporal_downgrade sTx 500000).2.1 (by decide) (by decide)⟩

/-! ## C8: the Wasabi filter chain priority -/

/-- **C8**  The Wasabi refiner's filter chain evaluates gambling, then
disallowed values, then address reuse, then exact output values, then
edge-case values; the first matching filter is the unique rejection reason
and short-circuits the rest (at most one reason per transaction), and
applying a filter verdict bumps the per-reason accounting by at most one. -/
theorem wasabi_filter_priority (tx : ETx) :
    ((filterReason tx = .ok (some .gambling)) ↔
      tx_uses_gambling_address tx = true) ∧
    ((filterReason tx = .ok (some .disallowed)) ↔
      tx_uses_gambling_address tx = false ∧
        tx_uses_disallowed_values tx = .ok true) ∧
    ((filterReason tx = .ok (some .reuse)) ↔
      tx_uses_gambling_address tx = false ∧
        tx_uses_disallowed_values tx = .ok false ∧
        tx_reuses_output_address tx = true) ∧
    ((filterReason tx = .ok (some .output_exact)) ↔
      tx_uses_gambling_address tx = false ∧
        tx_uses_disallowed_values tx = .ok false ∧
        tx_reuses_output_address tx = false ∧
        tx_uses_exact_output_values tx = true) ∧
    ((filterReason tx = .ok (some .output_edge)) ↔
      tx_uses_gambling_address tx = false ∧
        tx_uses_disallowed_values tx = .ok false ∧
        tx_reuses_output_address tx = false ∧
        tx_uses_exact_output_values tx = false ∧
        tx_uses_edge_case_values tx = .ok true) ∧
    ((filterReason tx = .ok none) ↔
      tx_uses_gambling_address tx = false ∧
        tx_uses_disallowed_values tx = .ok false ∧
        tx_reuses_output_address tx = false ∧
        tx_uses_exact_output_values tx = false ∧
        tx_uses_edge_case_values tx = .ok false) ∧
    (∀ (s : WasabiState) (r : Option Reason),
      sumReasons (applyFilter s tx.tx_hash r) ≤ sumReasons s + 1) ∧
    (∀ s : WasabiState, applyFilter s tx.tx_hash none = s) := by
  have hset : ∀ (l : List String) (x : String),
      (setAdd l x).length ≤ l.length + 1 := by
    intro l x
    unfold setAdd
    split
    · omega
    · simp
  have hsum : ∀ (s : WasabiState) (r : Option Reason),
      sumReasons (applyFilter s tx.tx_hash r) ≤ sumReasons s + 1 := by
    intro s r
    have h1 := hset s.disallowed_values tx.tx_hash
    cases r with
    | none => simp [applyFilter]
    | some rr => cases rr <;> simp [applyFilter, sumReasons] <;> omega
  refine ⟨?_, ?_, ?_, ?_, ?_, ?_, hsum, fun s => rfl⟩ <;>
  · by_cases hg : tx_uses_gambling_address tx = true
    · simp [filterReason, hg]
    · rw [Bool.not_eq_true] at hg
      cases hdv : tx_uses_disallowed_values tx with
      | error e => simp [filterReason, hg, hdv]
      | ok b =>
        cases b with
        | true => simp [filterReason, hg, hdv]
        | false =>
          by_cases hr : tx_reuses_output_address tx = true
          · simp [filterReason, hg, hdv, hr]
          · rw [Bool.not_eq_true] at hr
            by_cases hx : tx_uses_exact_output_values tx = true
            · simp [filterReason, hg, hdv, hr, hx]
            · rw [Bool.not_eq_true] at hx
              cases he : tx_uses_edge_case_values tx with
              | error e => simp [filterReason, hg, hdv, hr, hx, he]
              | ok b2 => cases b2 <;> simp [filterReason, hg, hdv, hr, hx, he]

/-! ## C9: disposition of heuristic-only detections -/

/-- **C9**  An enriched transaction that survives all five filters and whose
raw details are exactly `heuristic` is tallied false-positive-unfiltered and
kept out of the accepted output when its height lies in [530500, 609999],
and otherwise tallied heuristic-positive and added to the accepted output. -/
theorem heuristic_only_disposition (raw : List (String × String)) (tx : ETx)
    (s s' : WasabiState)
    (hfresh : tx.tx_hash ∉ s.filtered_ids)
    (hdet : raw.lookup tx.tx_hash = some "heuristic")
    (hsurv : filterReason tx = .ok none)
    (hok : wasabiStep raw s tx = .ok s') :
    (530500 ≤ tx.height ∧ tx.height ≤ 609999 →
      s'.fp_unfiltered = s.fp_unfiltered + 1 ∧
      s'.heuristic_positive = s.heuristic_positive ∧
      s'.new_txs = s.new_txs) ∧
    ((tx.height < 530500 ∨ 609999 < tx.height) →
      s'.heuristic_positive = s.heuristic_positive + 1 ∧
      s'.fp_unfiltered = s.fp_unfiltered ∧
      s'.new_txs = dictInsert s.new_txs tx.tx_hash tx) := by
  have hstep : wasabiStep raw s tx
      = .ok (disposition (applyFilter s tx.tx_hash none) tx "heuristic") := by
    unfold wasabiStep
    rw [hsurv, hdet]
  have hs' : disposition s tx "heuristic" = s' := by
    have := hstep.symm.trans hok
    exact Except.ok.inj this
  unfold disposition at hs'
  rw [if_neg hfresh, if_neg (by decide : ¬("heuristic" : String) = "false positive"),
      if_neg (by decide : ¬("heuristic" : String) = "coord address|heuristic"),
      if_neg (by decide : ¬("heuristic" : String) = "coord address"),
      if_pos (rfl : ("heuristic" : String) = "heuristic")] at hs'
  by_cases hh : tx.height ≤ 609999 ∧ 530500 ≤ tx.height
  · rw [if_pos hh] at hs'
    rw [← hs']
    exact ⟨fun _ => ⟨rfl, rfl, rfl⟩, fun hc => absurd hc (by omega)⟩
  · rw [if_neg hh] at hs'
    rw [← hs']
    refine ⟨fun hc => absurd hh (by omega), fun _ => ⟨rfl, rfl, rfl⟩⟩

/-- Witness for C9: refining `tEnr` (height 600000, heuristic-only) against
`rawDet` tallies one false-positive-unfiltered and keeps the output empty. -/
theorem heuristic_only_disposition_witness :
    stateAfterOne.fp_unfiltered = initState.fp_unfiltered + 1 ∧
    stateAfterOne.heuristic_positive = initState.heuristic_positive ∧
    stateAfterOne.new_txs = initState.new_txs :=
  (heuristic_only_disposition rawDet tEnr initState stateAfterOne
      (by decide) (by decide) rfl rfl).1 (by decide)

/-! ## C1: the Samourai refiner -/

lemma samouraiSplitOk_iff (tx : ETx) (sz : Int) :
    samouraiSplitOk tx sz = true ↔
      ((count_remix tx sz = 1 ∧ count_premix tx sz = 4)
        ∨ (count_remix tx sz = 2 ∧ count_premix tx sz = 3)
        ∨ (count_remix tx sz = 3 ∧ count_premix tx sz = 2)) := by
  simp [samouraiSplitOk]

lemma samouraiPoolLoop_eq_true (tx : ETx) (L : List Int) :
    samouraiPoolLoop tx L = true ↔
      ∃ sz ∈ L, tx.firstOutputValue = sz ∧ samouraiSplitOk tx sz = true := by
  induction L with
  | nil => simp [samouraiPoolLoop]
  | cons a L ih =>
    unfold samouraiPoolLoop
    by_cases hfa : tx.firstOutputValue = a
    · rw [if_pos hfa]
      constructor
      · intro hsp
        exact ⟨a, List.mem_cons_self a L, hfa, hsp⟩
      · rintro ⟨sz, hm, hfs, hsp⟩
        have hsa : sz = a := by rw [← hfs, ← hfa]
        rw [← hsa]
        exact hsp
    · rw [if_neg hfa, ih]
      constructor
      · rintro ⟨sz, hm, hfs, hsp⟩
        exact ⟨sz, List.mem_cons_of_mem a hm, hfs, hsp⟩
      · rintro ⟨sz, hm, hfs, hsp⟩
        rcases List.mem_cons.1 hm with rfl | hm'
        · exact absurd hfs hfa
        · exact ⟨sz, hm', hfs, hsp⟩

/-- **C1**  The Samourai refiner accepts exactly the enriched transactions
with 5 inputs, 5 outputs, a uniform output value equal to a Whirlpool pool
size `sz`, and a (remix, premix) input split of (1,4), (2,3) or (3,2),
where remix means resolved value exactly `sz` and premix means value in
`(sz, sz + MAX_POOL_FEE]`. -/
theorem samourai_refiner_iff (tx : ETx) :
    is_samourai_coin_join tx = true ↔ SamouraiRefinerSpec tx := by
  unfold is_samourai_coin_join SamouraiRefinerSpec
  by_cases h5 : tx.inputs.length = 5 ∧ tx.outputs.length = 5
  · rw [if_pos h5]
    obtain ⟨hin, hout⟩ := h5
    cases houts : tx.outputs with
    | nil => rw [houts] at hout; simp at hout
    | cons o rest =>
      rw [houts] at hout
      have hfv : tx.firstOutputValue = o.value := by
        unfold ETx.firstOutputValue; rw [houts]; rfl
      simp only [List.map_cons]
      by_cases hd : (o.value :: rest.map EOutput.value).dedup.length = 1
      · rw [if_pos hd]
        obtain ⟨a, ha⟩ := (dedup_length_eq_one
          (List.cons_ne_nil o.value (rest.map EOutput.value))).1 hd
        have hoa : o.value = a :=
          ha o.value (List.mem_cons_self o.value (rest.map EOutput.value))
        have huni : ∀ o' ∈ o :: rest, o'.value = o.value := by
          intro o' ho'
          have : o'.value ∈ o.value :: rest.map EOutput.value := by
            rw [← List.map_cons]
            exact List.mem_map_of_mem _ ho'
          rw [ha o'.value this, hoa]
        rw [samouraiPoolLoop_eq_true]
        constructor
        · rintro ⟨sz, hm, hfs, hsp⟩
          refine ⟨hin, hout, sz, hm, ?_, (samouraiSplitOk_iff tx sz).1 hsp⟩
          intro o' ho'
          rw [huni o' ho', ← hfv, hfs]
        · rintro ⟨-, -, sz, hm, hall, hsp⟩
          refine ⟨sz, hm, ?_, (samouraiSplitOk_iff tx sz).2 hsp⟩
          rw [hfv]
          exact hall o (List.mem_cons_self o rest)
      · rw [if_neg hd]
        simp only [Bool.false_eq_true, false_iff]
        rintro ⟨-, -, sz, -, hall, -⟩
        refine hd ((dedup_length_eq_one
          (List.cons_ne_nil o.value (rest.map EOutput.value))).2 ⟨sz, ?_⟩)
        intro x hx
        rw [← List.map_cons] at hx
        obtain ⟨o', ho', rfl⟩ := List.mem_map.1 hx
        exact hall o' ho'
  · rw [if_neg h5]
    simp only [Bool.false_eq_true, false_iff]
    rintro ⟨h1, h2, -⟩
    exact h5 ⟨h1, h2⟩

/-! ## C7: what the Samourai refiner surfaces for follow-up -/

lemma countP_or_of_disjoint {α : Type} (p q : α → Bool) (l : List α)
    (h : ∀ x ∈ l, ¬(p x = true ∧ q x = true)) :
    l.countP (fun x => p x || q x) = l.countP p + l.countP q := by
  induction l with
  | nil => simp
  | cons a l ih =>
    have ha := h a (List.mem_cons_self a l)
    have hl : ∀ x ∈ l, ¬(p x = true ∧ q x = true) :=
      fun x hx => h x (List.mem_cons_of_mem a hx)
    cases hpa : p a <;> cases hqa : q a
    · simp [List.countP_cons, hpa, hqa, ih hl]
    · simp [List.countP_cons, hpa, hqa, ih hl]
      omega
    · simp [List.countP_cons, hpa, hqa, ih hl]
      omega
    · exact absurd ⟨hpa, hqa⟩ ha

lemma premix_not_pool (sz v : Int) (hsz : sz ∈ Samourai.WHIRLPOOL_SIZES)
    (h1 : sz < v) (h2 : v ≤ sz + Samourai.MAX_POOL_FEE) :
    v ∉ Samourai.WHIRLPOOL_SIZES := by
  intro hv
  have hfee : Samourai.MAX_POOL_FEE = 110000 := rfl
  simp only [Samourai.WHIRLPOOL_SIZES, List.mem_cons,
    List.not_mem_nil, or_false] at hsz hv
  rcases hsz with rfl | rfl | rfl <;> rcases hv with rfl | rfl | rfl <;> omega

lemma is_samourai_coin_join_spec {tx : ETx}
    (h : is_samourai_coin_join tx = true) :
    tx.inputs.length = 5 ∧ tx.outputs.length = 5 ∧
    tx.firstOutputValue ∈ Samourai.WHIRLPOOL_SIZES ∧
    (∀ o ∈ tx.outputs, o.value = tx.firstOutputValue) ∧
    samouraiSplitOk tx tx.firstOutputValue = true := by
  unfold is_samourai_coin_join at h
  by_cases h5 : tx.inputs.length = 5 ∧ tx.outputs.length = 5
  · rw [if_pos h5] at h
    obtain ⟨hin, hout⟩ := h5
    cases houts : tx.outputs with
    | nil => rw [houts] at hout; simp at hout
    | cons o rest =>
      rw [houts] at hout
      rw [houts] at h
      have hfv : tx.firstOutputValue = o.value := by
        unfold ETx.firstOutputValue; rw [houts]; rfl
      simp only [List.map_cons] at h
      by_cases hd : (o.value :: rest.map EOutput.value).dedup.length = 1
      · rw [if_pos hd] at h
        obtain ⟨sz, hm, hfs, hsp⟩ := (samouraiPoolLoop_eq_true tx _).1 h
        obtain ⟨a, ha⟩ := (dedup_length_eq_one
          (List.cons_ne_nil o.value (rest.map EOutput.value))).1 hd
        have hoa : o.value = a :=
          ha o.value (List.mem_cons_self o.value (rest.map EOutput.value))
        have huni : ∀ o' ∈ o :: rest, o'.value = tx.firstOutputValue := by
          intro o' ho'
          have : o'.value ∈ o.value :: rest.map EOutput.value := by
            rw [← List.map_cons]
            exact List.mem_map_of_mem _ ho'
          rw [ha o'.value this, hfv, hoa]
        refine ⟨hin, hout, ?_, ?_, ?_⟩
        · rw [hfs]; exact hm
        · exact huni
        · rw [hfs]; exact hsp
      · rw [if_neg hd] at h
        exact absurd h (by simp)
  · rw [if_neg h5] at h
    exact absurd h (by simp)

lemma accepted_all_remix_premix (tx : ETx) (sz : Int)
    (hin : tx.inputs.length = 5)
    (hsp : samouraiSplitOk tx sz = true) :
    ∀ i ∈ tx.inputs,
      i.value = sz ∨ (sz < i.value ∧ i.value ≤ sz + Samourai.MAX_POOL_FEE) := by
  have hdisj : ∀ i ∈ tx.inputs,
      ¬((decide (i.value = sz)) = true ∧
        (decide (sz < i.value ∧ i.value ≤ sz + Samourai.MAX_POOL_FEE))
          = true) := by
    rintro i - ⟨ha, hb⟩
    rw [decide_eq_true_eq] at ha hb
    omega
  have hor := countP_or_of_disjoint
    (fun i => decide (i.value = sz))
    (fun i => decide (sz < i.value ∧ i.value ≤ sz + Samourai.MAX_POOL_FEE))
    tx.inputs hdisj
  have hsum : count_remix tx sz + count_premix tx sz = 5 := by
    rcases (samouraiSplitOk_iff tx sz).1 hsp with ⟨h1, h2⟩ | ⟨h1, h2⟩ | ⟨h1, h2⟩
      <;> omega
  have hfull : tx.inputs.countP
      (fun i => decide (i.value = sz)
        || decide (sz < i.value ∧ i.value ≤ sz + Samourai.MAX_POOL_FEE))
      = tx.inputs.length := by
    rw [hor, hin]
    exact hsum
  intro i hi
  have := List.countP_eq_length.1 hfull i hi
  rcases Bool.or_eq_true_iff.1 this with hc | hc
  · exact Or.inl (of_decide_eq_true hc)
  · exact Or.inr (of_decide_eq_true hc)

lemma collectTx0_eq_premix (sz : Int) (hsz : sz ∈ Samourai.WHIRLPOOL_SIZES) :
    ∀ (ins : List EInput) (hs : List String),
      ins.length = hs.length →
      (∀ i ∈ ins,
        i.value = sz ∨ (sz < i.value ∧ i.value ≤ sz + Samourai.MAX_POOL_FEE)) →
      collectTx0 ins hs =
        ((ins.zip hs).filter fun q =>
          decide (sz < q.1.value ∧ q.1.value ≤ sz + Samourai.MAX_POOL_FEE)).map
          Prod.snd := by
  intro ins
  induction ins with
  | nil =>
    intro hs hlen _
    cases hs with
    | nil => simp [collectTx0]
    | cons h hs' => simp at hlen
  | cons i ins ih =>
    intro hs hlen hall
    cases hs with
    | nil => simp at hlen
    | cons h hs' =>
      have hlen' : ins.length = hs'.length := by
        simp only [List.length_cons] at hlen
        omega
      have hi := hall i (List.mem_cons_self i ins)
      have hall' : ∀ x ∈ ins,
          x.value = sz ∨ (sz < x.value ∧ x.value ≤ sz + Samourai.MAX_POOL_FEE) :=
        fun x hx => hall x (List.mem_cons_of_mem i hx)
      unfold collectTx0
      rw [List.zip_cons_cons]
      rcases hi with hrem | hpre
      · rw [if_pos (hrem ▸ hsz)]
        rw [List.filter_cons_of_neg (by simp [hrem])]
        exact ih hs' hlen' hall'
      · rw [if_neg (premix_not_pool sz i.value hsz hpre.1 hpre.2)]
        rw [List.filter_cons_of_pos (by simp [hpre.1, hpre.2])]
        simp only [List.map_cons]
        rw [ih hs' hlen' hall']

lemma samouraiRefineRun_snd (potentials : String → List String)
    (txs : List (String × ETx)) :
    (samouraiRefineRun potentials txs).2 =
      ((txs.filter fun p => is_samourai_coin_join p.2).map
        fun p => collectTx0 p.2.inputs (potentials p.1)).flatten := by
  have key : ∀ (l : List (String × ETx)) (acc : List (String × ETx) × List String),
      (l.foldl
        (fun acc p =>
          if is_samourai_coin_join p.2 then
            (acc.1 ++ [p], acc.2 ++ collectTx0 p.2.inputs (potentials p.1))
          else acc)
        acc).2
      = acc.2 ++ ((l.filter fun p => is_samourai_coin_join p.2).map
          fun p => collectTx0 p.2.inputs (potentials p.1)).flatten := by
    intro l
    induction l with
    | nil => intro acc; simp
    | cons p l ih =>
      intro acc
      simp only [List.foldl_cons]
      by_cases hp : is_samourai_coin_join p.2 = true
      · rw [if_pos hp, ih,
          List.filter_cons_of_pos (p := fun q : String × ETx => is_samourai_coin_join q.2) hp]
        simp [List.append_assoc]
      · rw [if_neg hp, ih,
          List.filter_cons_of_neg (p := fun q : String × ETx => is_samourai_coin_join q.2) hp]
  unfold samouraiRefineRun
  rw [key]
  simp

/-- **C7 (counterexample)**  The claim says only Tx0 inputs (neither remix
nor premix) of accepted transactions are surfaced and premix inputs never
are.  `c7tx` is accepted with 2 remix and 3 premix inputs, has zero Tx0
inputs, yet the collection loop surfaces the three premix hashes. -/
theorem tx0_counterexample :
    is_samourai_coin_join c7tx = true ∧
    collectTx0 c7tx.inputs c7hashes = ["h2", "h3", "h4"] ∧
    c7tx.inputs.countP (fun i =>
      decide (¬(i.value = 1000000) ∧
        ¬(1000000 < i.value ∧ i.value ≤ 1000000 + Samourai.MAX_POOL_FEE)))
      = 0 := by
  refine ⟨by decide, by decide, by decide⟩

/-- **C7 (amended)**  For each accepted transaction the refiner surfaces
exactly the hashes of its inputs whose value lies in the premix band
`(sz, sz + MAX_POOL_FEE]` (equivalently, whose value is not a pool size);
accepted transactions have no Tx0 input at all, and rejected transactions
contribute nothing. -/
theorem samourai_premix_surfaced (potentials : String → List String)
    (txs : List (String × ETx))
    (hlen : ∀ p ∈ txs, (potentials p.1).length = p.2.inputs.length) :
    (samouraiRefineRun potentials txs).2 =
      ((txs.filter fun p => is_samourai_coin_join p.2).map
        (premixHashes potentials)).flatten ∧
    ∀ p ∈ txs, is_samourai_coin_join p.2 = true →
      p.2.inputs.countP (fun i =>
        decide (¬(i.value = p.2.firstOutputValue) ∧
          ¬(p.2.firstOutputValue < i.value ∧
            i.value ≤ p.2.firstOutputValue + Samourai.MAX_POOL_FEE))) = 0 := by
  constructor
  · rw [samouraiRefineRun_snd]
    congr 1
    apply List.map_congr_left
    intro p hp
    have hmem : p ∈ txs := (List.mem_filter.1 hp).1
    have hacc : is_samourai_coin_join p.2 = true := (List.mem_filter.1 hp).2
    obtain ⟨hin5, hout5, hszmem, hall, hsp⟩ := is_samourai_coin_join_spec hacc
    have hallrp := accepted_all_remix_premix p.2 p.2.firstOutputValue hin5 hsp
    unfold premixHashes
    exact collectTx0_eq_premix p.2.firstOutputValue hszmem p.2.inputs
      (potentials p.1) (hlen p hmem).symm hallrp
  · intro p hmem hacc
    obtain ⟨hin5, hout5, hszmem, hall, hsp⟩ := is_samourai_coin_join_spec hacc
    have hallrp := accepted_all_remix_premix p.2 p.2.firstOutputValue hin5 hsp
    rw [List.countP_eq_zero]
    intro i hi
    rcases hallrp i hi with hr | hp
    · simp [hr]
    · simp [hp.1, hp.2]

/-- Witness for the amended C7 at a concrete accepted transaction whose
surfaced hashes are exactly its premix hashes. -/
theorem samourai_premix_surfaced_witness :
    (samouraiRefineRun (fun _ => c7hashes) [("s1", c7tx)]).2 =
      (([("s1", c7tx)].filter fun p => is_samourai_coin_join p.2).map
        (premixHashes (fun _ => c7hashes))).flatten ∧
    ∀ p ∈ [("s1", c7tx)], is_samourai_coin_join p.2 = true →
      p.2.inputs.countP (fun i =>
        decide (¬(i.value = p.2.firstOutputValue) ∧
          ¬(p.2.firstOutputValue < i.value ∧
            i.value ≤ p.2.firstOutputValue + Samourai.MAX_POOL_FEE))) = 0 :=
  samourai_premix_surfaced (fun _ => c7hashes) [("s1", c7tx)] (by decide)

/-! ## C2: the accounting invariant of the Wasabi refiner -/

lemma mem_setAdd_iff (s : List String) (x y : String) :
    y ∈ setAdd s x ↔ y = x ∨ y ∈ s := by
  unfold setAdd
  split
  · constructor
    · exact fun hy => Or.inr hy
    · rintro (rfl | hy)
      · assumption
      · exact hy
  · simp [List.mem_cons]

lemma mem_setAdd_self (s : List String) (x : String) : x ∈ setAdd s x :=
  (mem_setAdd_iff s x x).2 (Or.inl rfl)

lemma setAdd_length_of_not_mem {s : List String} {x : String} (h : x ∉ s) :
    (setAdd s x).length = s.length + 1 := by
  unfold setAdd
  rw [if_neg h]
  rfl

lemma disposition_fields (s : WasabiState) (tx : ETx) (d : String) :
    (disposition s tx d).gambling = s.gambling ∧
    (disposition s tx d).reuse = s.reuse ∧
    (disposition s tx d).output_exact = s.output_exact ∧
    (disposition s tx d).output_edge = s.output_edge ∧
    (disposition s tx d).disallowed_values = s.disallowed_values ∧
    (disposition s tx d).filtered_ids = s.filtered_ids ∧
    (disposition s tx d).fp_filtered
      = s.fp_filtered + (if tx.tx_hash ∈ s.filtered_ids then 1 else 0) := by
  unfold disposition
  split_ifs with h1 h2 h3 h4 h5 h6 <;> simp_all

lemma sumReasons_disposition (s : WasabiState) (tx : ETx) (d : String) :
    sumReasons (disposition s tx d) = sumReasons s := by
  obtain ⟨h1, h2, h3, h4, h5, -, -⟩ := disposition_fields s tx d
  unfold sumReasons
  rw [h1, h2, h3, h4, h5]

lemma applyFilter_some_filtered (s : WasabiState) (h : String) (r : Reason) :
    (applyFilter s h (some r)).filtered_ids = setAdd s.filtered_ids h := by
  cases r <;> rfl

lemma applyFilter_fp (s : WasabiState) (h : String) (r : Option Reason) :
    (applyFilter s h r).fp_filtered = s.fp_filtered := by
  cases r with
  | none => rfl
  | some rr => cases rr <;> rfl

lemma applyFilter_some_sum (s : WasabiState) (h : String) (r : Reason)
    (hnd : h ∉ s.disallowed_values) :
    sumReasons (applyFilter s h (some r)) = sumReasons s + 1 := by
  cases r <;>
    simp [applyFilter, sumReasons, setAdd_length_of_not_mem hnd] <;> omega

lemma applyFilter_disallowed_sub (s : WasabiState) (h : String)
    (r : Option Reason) :
    ∀ x ∈ (applyFilter s h r).disallowed_values,
      x = h ∨ x ∈ s.disallowed_values := by
  cases r with
  | none => exact fun x hx => Or.inr hx
  | some rr =>
    cases rr with
    | disallowed =>
      intro x hx
      exact (mem_setAdd_iff s.disallowed_values h x).1 hx
    | gambling => exact fun x hx => Or.inr hx
    | reuse => exact fun x hx => Or.inr hx
    | output_exact => exact fun x hx => Or.inr hx
    | output_edge => exact fun x hx => Or.inr hx

lemma wasabiStep_invariant (raw : List (String × String)) (s s' : WasabiState)
    (tx : ETx)
    (hf : tx.tx_hash ∉ s.filtered_ids)
    (hd : tx.tx_hash ∉ s.disallowed_values)
    (hok : wasabiStep raw s tx = .ok s') :
    (sumReasons s = s.fp_filtered → sumReasons s' = s'.fp_filtered) ∧
    (∀ x ∈ s'.filtered_ids, x = tx.tx_hash ∨ x ∈ s.filtered_ids) ∧
    (∀ x ∈ s'.disallowed_values, x = tx.tx_hash ∨ x ∈ s.disallowed_values) := by
  unfold wasabiStep at hok
  cases hr : filterReason tx with
  | error e => rw [hr] at hok; exact absurd hok (by simp)
  | ok r =>
    rw [hr] at hok
    cases hlk : raw.lookup tx.tx_hash with
    | none => rw [hlk] at hok; exact absurd hok (by simp)
    | some d =>
      rw [hlk] at hok
      have hs' : s' = disposition (applyFilter s tx.tx_hash r) tx d :=
        (Except.ok.inj hok).symm
      obtain ⟨-, -, -, -, hdis5, hfil6, hfp7⟩ :=
        disposition_fields (applyFilter s tx.tx_hash r) tx d
      cases r with
      | none =>
        have happ : applyFilter s tx.tx_hash none = s := rfl
        rw [happ] at hs' hdis5 hfil6 hfp7
        refine ⟨fun hsum => ?_, fun x hx => ?_, fun x hx => ?_⟩
        · rw [hs', sumReasons_disposition, hfp7, if_neg hf, hsum]
          omega
        · rw [hs', hfil6] at hx
          exact Or.inr hx
        · rw [hs', hdis5] at hx
          exact Or.inr hx
      | some rr =>
        have hfil1 := applyFilter_some_filtered s tx.tx_hash rr
        rw [hfil1] at hfil6 hfp7
        refine ⟨fun hsum => ?_, fun x hx => ?_, fun x hx => ?_⟩
        · rw [hs', sumReasons_disposition, applyFilter_some_sum s _ rr hd,
            hfp7, if_pos (mem_setAdd_self s.filtered_ids tx.tx_hash),
            applyFilter_fp, hsum]
        · rw [hs', hfil6] at hx
          exact (mem_setAdd_iff s.filtered_ids tx.tx_hash x).1 hx
        · rw [hs', hdis5] at hx
          exact applyFilter_disallowed_sub s tx.tx_hash (some rr) x hx
lemma wasabiRun_aux (raw : List (String × String)) :
    ∀ (txs : List ETx) (s0 s : WasabiState),
      (txs.map ETx.tx_hash).Nodup →
      (∀ t ∈ txs,
        t.tx_hash ∉ s0.filtered_ids ∧ t.tx_hash ∉ s0.disallowed_values) →
      sumReasons s0 = s0.fp_filtered →
      List.foldlM (wasabiStep raw) s0 txs = .ok s →
      sumReasons s = s.fp_filtered := by
  intro txs
  induction txs with
  | nil =>
    intro s0 s _ _ hsum hok
    rw [List.foldlM_nil] at hok
    have : s0 = s := by
      have := hok
      simp only [pure, Except.pure] at this
      exact Except.ok.inj this
    rw [← this]
    exact hsum
  | cons t ts ih =>
    intro s0 s hnd hfresh hsum hok
    rw [List.foldlM_cons] at hok
    cases hstep : wasabiStep raw s0 t with
    | error e =>
      rw [hstep] at hok
      simp only [bind, Except.bind] at hok
      exact absurd hok (by simp)
    | ok s1 =>
      rw [hstep] at hok
      simp only [bind, Except.bind] at hok
      obtain ⟨hf, hdisal⟩ := hfresh t (List.mem_cons_self t ts)
      obtain ⟨hsum1, hfsub, hdsub⟩ :=
        wasabiStep_invariant raw s0 s1 t hf hdisal hstep
      have hnd' : (ts.map ETx.tx_hash).Nodup := by
        rw [List.map_cons, List.nodup_cons] at hnd
        exact hnd.2
      have hhead : t.tx_hash ∉ ts.map ETx.tx_hash := by
        rw [List.map_cons, List.nodup_cons] at hnd
        exact hnd.1
      refine ih s1 s hnd' ?_ (hsum1 hsum) hok
      intro t' ht'
      have hne : t'.tx_hash ≠ t.tx_hash := by
        intro heq
        exact hhead (heq ▸ List.mem_map_of_mem ETx.tx_hash ht')
      obtain ⟨hf', hd'⟩ := hfresh t' (List.mem_cons_of_mem t ht')
      constructor
      · intro hmem
        rcases hfsub _ hmem with heq | hmem0
        · exact hne heq
        · exact hf' hmem0
      · intro hmem
        rcases hdsub _ hmem with heq | hmem0
        · exact hne heq
        · exact hd' hmem0

/-- **C2**  After a completed Wasabi refinement run over transactions with
pairwise distinct hashes, the per-reason filtered counters sum to the total
filtered counter, so the `UNACCOUNTED FILTER` warning is not emitted (a
mismatch would only warn, never abort: the run's output is produced
alongside the flag). -/
theorem wasabi_accounting (raw : List (String × String)) (txs : List ETx)
    (s : WasabiState) (hnd : (txs.map ETx.tx_hash).Nodup)
    (hok : wasabiRun raw txs = .ok s) :
    sumReasons s = s.fp_filtered ∧ accountingMismatch s = false := by
  have h := wasabiRun_aux raw txs initState s hnd
    (fun t _ => ⟨List.not_mem_nil t.tx_hash, List.not_mem_nil t.tx_hash⟩)
    rfl hok
  refine ⟨h, ?_⟩
  simp [accountingMismatch, h]

/-- Witness for C2: a completed one-transaction run with matching counters. -/
theorem wasabi_accounting_witness :
    sumReasons stateAfterOne = stateAfterOne.fp_filtered ∧
    accountingMismatch stateAfterOne = false :=
  wasabi_accounting rawDet [tEnr] stateAfterOne (by decide) rfl

/-! ## C3: the Wasabi statistical heuristic -/

lemma bump_map_id {L : List (Int × Nat)} {v : Int} (h : v ∉ L.map Prod.fst) :
    L.map (fun p => if p.1 = v then (p.1, p.2 + 1) else p) = L := by
  induction L with
  | nil => rfl
  | cons p L ih =>
    have h1 : p.1 ≠ v := by
      intro heq
      exact h (by rw [List.map_cons, heq]; exact List.mem_cons_self _ _)
    have h2 : v ∉ L.map Prod.fst := by
      intro hm
      exact h (by rw [List.map_cons]; exact List.mem_cons_of_mem _ hm)
    rw [List.map_cons, if_neg h1, ih h2]

lemma insertCount_eq {L : List (Int × Nat)} (v : Int)
    (hnd : (L.map Prod.fst).Nodup) :
    insertCount L v =
      if v ∈ L.map Prod.fst then
        L.map (fun p => if p.1 = v then (p.1, p.2 + 1) else p)
      else L ++ [(v, 1)] := by
  induction L with
  | nil => simp [insertCount]
  | cons p L ih =>
    obtain ⟨k, c⟩ := p
    rw [List.map_cons, List.nodup_cons] at hnd
    obtain ⟨hknotin, hnd'⟩ := hnd
    by_cases hkv : k = v
    · subst hkv
      unfold insertCount
      rw [if_pos rfl, if_pos (by rw [List.map_cons]; exact List.mem_cons_self _ _)]
      rw [List.map_cons, bump_map_id hknotin]
      simp
    · unfold insertCount
      rw [if_neg hkv]
      by_cases hv : v ∈ L.map Prod.fst
      · rw [if_pos (by rw [List.map_cons]; exact List.mem_cons_of_mem _ hv)]
        rw [List.map_cons]
        simp only [if_neg hkv]
        rw [ih hnd', if_pos hv]
      · rw [if_neg (by
          rw [List.map_cons, List.mem_cons]
          rintro (h | h)
          · exact hkv h.symm
          · exact hv h)]
        rw [ih hnd', if_neg hv]
        rfl

lemma outputCounts_append (l : List Int) (v : Int) :
    outputCounts (l ++ [v]) = insertCount (outputCounts l) v := by
  unfold outputCounts
  rw [List.foldl_append]
  rfl

lemma outputCounts_spec (l : List Int) :
    ((outputCounts l).map Prod.fst).Nodup ∧
    (∀ p ∈ outputCounts l, p.1 ∈ l ∧ p.2 = l.count p.1) ∧
    (∀ v ∈ l, (v, l.count v) ∈ outputCounts l) ∧
    (outputCounts l).Pairwise (fun p q => l.indexOf p.1 < l.indexOf q.1) := by
  induction l using List.reverseRecOn with
  | nil =>
    exact ⟨List.nodup_nil, by simp [outputCounts],
      by simp [outputCounts], List.Pairwise.nil⟩
  | append_singleton l v ih =>
    obtain ⟨hnd, hmem, hall, hpw⟩ := ih
    rw [outputCounts_append, insertCount_eq v hnd]
    have hbfst : ∀ p : Int × Nat,
        (if p.1 = v then (p.1, p.2 + 1) else p).1 = p.1 := by
      intro p
      by_cases h : p.1 = v <;> simp [h]
    by_cases hv : v ∈ (outputCounts l).map Prod.fst
    · rw [if_pos hv]
      have hvl : v ∈ l := by
        obtain ⟨q, hq, hq1⟩ := List.mem_map.1 hv
        rw [← hq1]
        exact (hmem q hq).1
      have hkeys : (((outputCounts l).map
            fun p => if p.1 = v then (p.1, p.2 + 1) else p).map Prod.fst)
          = (outputCounts l).map Prod.fst := by
        rw [List.map_map]
        exact List.map_congr_left fun p _ => hbfst p
      refine ⟨?_, ?_, ?_, ?_⟩
      · rw [hkeys]
        exact hnd
      · intro p hp
        obtain ⟨q, hq, hbq⟩ := List.mem_map.1 hp
        obtain ⟨hq1l, hq2⟩ := hmem q hq
        by_cases hq1 : q.1 = v
        · rw [if_pos hq1] at hbq
          subst hbq
          refine ⟨List.mem_append_left _ hq1l, ?_⟩
          show q.2 + 1 = (l ++ [v]).count q.1
          rw [List.count_append, hq1]
          simp [hq2, hq1]
        · rw [if_neg hq1] at hbq
          subst hbq
          refine ⟨List.mem_append_left _ hq1l, ?_⟩
          show q.2 = (l ++ [v]).count q.1
          rw [List.count_append]
          simp [List.count_cons, hq1, hq2]
      · intro w hw
        have hwl : w ∈ l := by
          rcases List.mem_append.1 hw with h | h
          · exact h
          · rw [List.mem_singleton.1 h]
            exact hvl
        by_cases hwv : w = v
        · subst hwv
          refine List.mem_map.2 ⟨(w, l.count w), hall w hwl, ?_⟩
          show (if (w, l.count w).1 = w then ((w, l.count w).1,
            (w, l.count w).2 + 1) else (w, l.count w)) = (w, (l ++ [w]).count w)
          simp [List.count_append]
        · refine List.mem_map.2 ⟨(w, l.count w), hall w hwl, ?_⟩
          show (if (w, l.count w).1 = v then ((w, l.count w).1,
            (w, l.count w).2 + 1) else (w, l.count w)) = (w, (l ++ [v]).count w)
          simp [List.count_append, List.count_cons, hwv]
      · rw [List.pairwise_map]
        refine hpw.imp_of_mem ?_
        intro a b ha hb hR
        have ha1 : a.1 ∈ l := (hmem a ha).1
        have hb1 : b.1 ∈ l := (hmem b hb).1
        simp only [hbfst]
        rw [List.indexOf_append_of_mem ha1, List.indexOf_append_of_mem hb1]
        exact hR
    · rw [if_neg hv]
      have hvl : v ∉ l := fun hmem' =>
        hv (List.mem_map.2 ⟨(v, l.count v), hall v hmem', rfl⟩)
      refine ⟨?_, ?_, ?_, ?_⟩
      · rw [List.map_append]
        simp only [List.map_cons, List.map_nil]
        rw [List.nodup_append]
        refine ⟨hnd, List.nodup_singleton v, ?_⟩
        intro x hx hx2
        rw [List.mem_singleton.1 hx2] at hx
        exact hv hx
      · intro p hp
        rcases List.mem_append.1 hp with hpo | hpv
        · obtain ⟨hp1, hp2⟩ := hmem p hpo
          have hp1v : p.1 ≠ v := fun he => hvl (he ▸ hp1)
          refine ⟨List.mem_append_left _ hp1, ?_⟩
          rw [List.count_append]
          simp [List.count_cons, hp1v, hp2]
        · have hp1 : p = (v, 1) := List.mem_singleton.1 hpv
          subst hp1
          refine ⟨List.mem_append_right _ (List.mem_singleton_self v), ?_⟩
          show 1 = (l ++ [v]).count v
          rw [List.count_append, List.count_eq_zero.2 hvl]
          simp
      · intro w hw
        rcases List.mem_append.1 hw with hwl | hwv
        · have hw1v : w ≠ v := fun he => hvl (he ▸ hwl)
          have hc : (l ++ [v]).count w = l.count w := by
            rw [List.count_append]
            simp [List.count_cons, hw1v]
          rw [hc]
          exact List.mem_append_left _ (hall w hwl)
        · rw [List.mem_singleton.1 hwv]
          have hc : (l ++ [v]).count v = 1 := by
            rw [List.count_append, List.count_eq_zero.2 hvl]
            simp
          rw [hc]
          exact List.mem_append_right _ (List.mem_singleton_self (v, 1))
      · rw [List.pairwise_append]
        refine ⟨?_, by simp, ?_⟩
        · refine hpw.imp_of_mem ?_
          intro a b ha hb hR
          rw [List.indexOf_append_of_mem (hmem a ha).1,
            List.indexOf_append_of_mem (hmem b hb).1]
          exact hR
        · intro a ha b hb
          rw [List.mem_singleton.1 hb]
          have ha1 : a.1 ∈ l := (hmem a ha).1
          rw [List.indexOf_append_of_mem ha1]
          have h2 : (l ++ [v]).indexOf (v, 1).1 = l.length := by
            show (l ++ [v]).indexOf v = l.length
            rw [List.indexOf_append_of_not_mem hvl]
            simp
          rw [h2]
          exact List.indexOf_lt_length.2 ha1

lemma foldl_max_spec (R : (Int × Nat) → (Int × Nat) → Prop) :
    ∀ (L : List (Int × Nat)) (best m : Int × Nat),
      L.foldl (fun b q => if b.2 < q.2 then q else b) best = m →
      (∀ q ∈ L, R best q) → L.Pairwise R →
      (m = best ∨ m ∈ L) ∧ best.2 ≤ m.2 ∧ (∀ q ∈ L, q.2 ≤ m.2) ∧
      (m ≠ best → best.2 < m.2) ∧
      (∀ q, (q = best ∨ q ∈ L) → q.2 = m.2 → q = m ∨ R m q) := by
  intro L
  induction L with
  | nil =>
    intro best m hm _ _
    rw [List.foldl_nil] at hm
    subst hm
    refine ⟨Or.inl rfl, le_refl _, by simp, fun h => absurd rfl h, ?_⟩
    rintro q (rfl | hq) hq2
    · exact Or.inl rfl
    · simp at hq
  | cons x L ih =>
    intro best m hm hbest hpw
    rw [List.foldl_cons] at hm
    rw [List.pairwise_cons] at hpw
    obtain ⟨hxL, hpwL⟩ := hpw
    by_cases hlt : best.2 < x.2
    · rw [if_pos hlt] at hm
      obtain ⟨hmem, hx2, hall, hneq, hfirst⟩ := ih x m hm hxL hpwL
      refine ⟨?_, ?_, ?_, ?_, ?_⟩
      · rcases hmem with rfl | hm'
        · exact Or.inr (List.mem_cons_self m L)
        · exact Or.inr (List.mem_cons_of_mem _ hm')
      · omega
      · intro q hq
        rcases List.mem_cons.1 hq with rfl | hq'
        · exact hx2
        · exact hall q hq'
      · intro _
        omega
      · rintro q hq hq2
        rcases hq with rfl | hq'
        · exact absurd hq2 (by omega)
        · rcases List.mem_cons.1 hq' with rfl | hq''
          · exact hfirst q (Or.inl rfl) hq2
          · exact hfirst q (Or.inr hq'') hq2
    · rw [if_neg hlt] at hm
      have hbestL : ∀ q ∈ L, R best q :=
        fun q hq => hbest q (List.mem_cons_of_mem _ hq)
      obtain ⟨hmem, hb2, hall, hneq, hfirst⟩ := ih best m hm hbestL hpwL
      refine ⟨?_, hb2, ?_, hneq, ?_⟩
      · rcases hmem with rfl | hm'
        · exact Or.inl rfl
        · exact Or.inr (List.mem_cons_of_mem _ hm')
      · intro q hq
        rcases List.mem_cons.1 hq with rfl | hq'
        · omega
        · exact hall q hq'
      · rintro q hq hq2
        rcases hq with rfl | hq'
        · exact hfirst q (Or.inl rfl) hq2
        · rcases List.mem_cons.1 hq' with rfl | hq''
          · by_cases hmb : m = best
            · subst hmb
              exact Or.inr (hbest q (List.mem_cons_self q L))
            · have := hneq hmb
              exact absurd hq2 (by omega)
          · exact hfirst q (Or.inr hq'') hq2

lemma maxBySnd_isFirstSeenMode (vals : List Int) (hne : vals ≠ []) :
    ∃ m c, maxBySnd (outputCounts vals) = some (m, c) ∧
      IsFirstSeenMode vals m c := by
  obtain ⟨hnd, hmem, hall, hpw⟩ := outputCounts_spec vals
  obtain ⟨w, hw⟩ := List.exists_mem_of_ne_nil vals hne
  have hwoc := hall w hw
  cases hoc : outputCounts vals with
  | nil =>
    rw [hoc] at hwoc
    simp at hwoc
  | cons x X =>
    have hpwX := hoc ▸ hpw
    rw [List.pairwise_cons] at hpwX
    obtain ⟨hxX, hpwX'⟩ := hpwX
    obtain ⟨m, hm⟩ : ∃ m, X.foldl (fun b q => if b.2 < q.2 then q else b) x = m :=
      ⟨_, rfl⟩
    obtain ⟨hmemm, hx2, hallq, hneq, hfirst⟩ :=
      foldl_max_spec (fun p q => vals.indexOf p.1 < vals.indexOf q.1) X x m
        hm hxX hpwX'
    have hmoc : m ∈ outputCounts vals := by
      rw [hoc]
      rcases hmemm with rfl | h
      · exact List.mem_cons_self m X
      · exact List.mem_cons_of_mem _ h
    obtain ⟨hm1, hm2⟩ := hmem m hmoc
    refine ⟨m.1, m.2, ?_, hm1, hm2, ?_, ?_⟩
    · show some (X.foldl (fun b q => if b.2 < q.2 then q else b) x)
        = some (m.1, m.2)
      rw [hm, Prod.mk.eta]
    · intro v hv
      have hvoc := hall v hv
      rw [hoc] at hvoc
      rcases List.mem_cons.1 hvoc with heq | hin
      · have : (v, vals.count v).2 ≤ m.2 := heq ▸ hx2
        exact this
      · exact hallq (v, vals.count v) hin
    · intro v hv hvc
      have hvoc := hall v hv
      rw [hoc] at hvoc
      have hq : (v, vals.count v) = x ∨ (v, vals.count v) ∈ X := by
        rcases List.mem_cons.1 hvoc with h | h
        · exact Or.inl h
        · exact Or.inr h
      rcases hfirst (v, vals.count v) hq hvc with heq | hR
      · rw [← heq]
      · exact le_of_lt hR

lemma isFirstSeenMode_unique {vals : List Int} {m₁ m₂ : Int} {c₁ c₂ : Nat}
    (h1 : IsFirstSeenMode vals m₁ c₁) (h2 : IsFirstSeenMode vals m₂ c₂) :
    m₁ = m₂ ∧ c₁ = c₂ := by
  obtain ⟨hm1, hc1, hmax1, hfst1⟩ := h1
  obtain ⟨hm2, hc2, hmax2, hfst2⟩ := h2
  have hcle : c₁ ≤ c₂ := by rw [hc1]; exact hmax2 m₁ hm1
  have hcge : c₂ ≤ c₁ := by rw [hc2]; exact hmax1 m₂ hm2
  have hc : c₁ = c₂ := le_antisymm hcle hcge
  have hi1 : vals.indexOf m₁ ≤ vals.indexOf m₂ :=
    hfst1 m₂ hm2 (by rw [← hc2, hc])
  have hi2 : vals.indexOf m₂ ≤ vals.indexOf m₁ :=
    hfst2 m₁ hm1 (by rw [← hc1, ← hc])
  exact ⟨(List.indexOf_inj hm1 hm2).1 (le_antisymm hi1 hi2), hc⟩

lemma outputCounts_any_one (vals : List Int) :
    ((outputCounts vals).any fun p => p.2 = 1) = true ↔
      ∃ v ∈ vals, vals.count v = 1 := by
  obtain ⟨hnd, hmem, hall, hpw⟩ := outputCounts_spec vals
  rw [List.any_eq_true]
  constructor
  · rintro ⟨p, hp, hp2⟩
    obtain ⟨hp1, hp2'⟩ := hmem p hp
    exact ⟨p.1, hp1, by rw [← hp2']; exact of_decide_eq_true hp2⟩
  · rintro ⟨v, hv, hc⟩
    exact ⟨(v, vals.count v), hall v hv, by simp [hc]⟩

lemma outputCounts_length (vals : List Int) :
    (outputCounts vals).length = vals.dedup.length := by
  obtain ⟨hnd, hmem, hall, hpw⟩ := outputCounts_spec vals
  have hperm : ((outputCounts vals).map Prod.fst).Perm vals.dedup := by
    apply (List.perm_ext_iff_of_nodup hnd (List.nodup_dedup vals)).2
    intro a
    rw [List.mem_dedup]
    constructor
    · intro ha
      obtain ⟨p, hp, hpa⟩ := List.mem_map.1 ha
      rw [← hpa]
      exact (hmem p hp).1
    · intro ha
      exact List.mem_map.2 ⟨(a, vals.count a), hall a ha, rfl⟩
  rw [← List.length_map (outputCounts vals) Prod.fst, hperm.length_eq]

/-- **C3**  The Wasabi statistical heuristic matches iff the transaction has
at least 10 outputs and, with `(M, c)` the first-seen mode of the output
values, input count ≥ c ≥ 10, `M` within 0.02 BTC of 0.1 BTC, some output
value occurring exactly once, and at least 3 distinct output values. -/
theorem wasabi_heuristic_iff (tx : Transaction) :
    is_wasabi_coin_join_heuristic tx = true ↔ WasabiHeuristicSpec tx := by
  unfold WasabiHeuristicSpec
  by_cases h10 : 10 ≤ tx.outputs.length
  · have houts : tx.outputs ≠ [] := by
      intro h
      rw [h] at h10
      simp at h10
    have hne : tx.outputs.map Output.value ≠ [] := fun hm =>
      houts (List.map_eq_nil_iff.1 hm)
    obtain ⟨m₀, c₀, hmax, hmode⟩ :=
      maxBySnd_isFirstSeenMode (tx.outputs.map Output.value) hne
    have hL : is_wasabi_coin_join_heuristic tx =
        (decide (c₀ ≤ tx.inputs.length) && decide (10 ≤ c₀)
          && decide (|Wasabi.APPROX_BASE_DENOM - m₀| ≤ Wasabi.MAX_PRECISION)
          && ((outputCounts (tx.outputs.map Output.value)).any fun p =>
                p.2 = 1)
          && decide
              (3 ≤ (outputCounts (tx.outputs.map Output.value)).length)) := by
      unfold is_wasabi_coin_join_heuristic
      rw [if_pos h10, hmax]
    rw [hL]
    simp only [Bool.and_eq_true, decide_eq_true_eq, outputCounts_any_one,
      outputCounts_length]
    constructor
    · rintro ⟨⟨⟨⟨h1, h2⟩, h3⟩, h4⟩, h5⟩
      exact ⟨h10, m₀, c₀, hmode, h1, h2, h3, h4, h5⟩
    · rintro ⟨-, m, c, hmode', h1, h2, h3, h4, h5⟩
      obtain ⟨hmeq, hceq⟩ := isFirstSeenMode_unique hmode' hmode
      subst hmeq
      subst hceq
      exact ⟨⟨⟨⟨h1, h2⟩, h3⟩, h4⟩, h5⟩
  · have hL : is_wasabi_coin_join_heuristic tx = false := by
      unfold is_wasabi_coin_join_heuristic
      rw [if_neg h10]
    rw [hL]
    simp only [Bool.false_eq_true, false_iff]
    rintro ⟨h1, -⟩
    exact h10 h1
